import Mathlib

/-!
Shallow embedding of the Huffman-Encoding-Visualizer repository
(`src/huffman.py`, `src/visualizer.py`).

Conventions used throughout:
* Python strings are modelled as `List Char`.
* `HuffmanNode.nil` models Python `None` in the `left`/`right`/root slots.
* `huffman.py` builds its heap with the CPython `heapq` module, whose exact
  array mechanics decide ties (`HuffmanNode.__lt__` compares frequencies
  only), so `heapify`, `heappush`, `heappop`, `_siftup`, `_siftdown` are
  embedded below following the stdlib algorithm line by line; local Python
  names (`parentpos`, `parent`, `lastelt`, `rest`, ...) are inlined.
* Out-of-range list reads (an `IndexError` in Python) are modelled with
  `List.getD`; every reachable call site stays in range.
* A Python `dict` (insertion ordered) is modelled as an association list
  with replace-or-append insertion.
* Python floats are modelled as `ℚ`; the geometry computed here is exact,
  and every concrete quantity the claims mention is reproduced exactly.
-/

namespace HuffmanViz

/-- Class `HuffmanNode` from `src/huffman.py`; `nil` stands for Python `None`. -/

inductive HuffmanNode where
  | nil : HuffmanNode
  | mk (char : Option Char) (freq : Nat) (left right : HuffmanNode)
deriving DecidableEq

namespace HuffmanNode

/-- Attribute `self.char` (`Option.none` on internal nodes; reading an attribute of
`nil` models an attribute access on Python `None`, which never happens on
reachable paths). -/

def char : HuffmanNode → Option Char
  | nil => Option.none
  | mk c _ _ _ => c

/-- Attribute `self.freq`. -/

def freq : HuffmanNode → Nat
  | nil => 0
  | mk _ f _ _ => f

/-- Attribute `self.left`. -/

def left : HuffmanNode → HuffmanNode
  | nil => nil
  | mk _ _ l _ => l

/-- Attribute `self.right`. -/

def right : HuffmanNode → HuffmanNode
  | nil => nil
  | mk _ _ _ r => r

/-- Method `HuffmanNode.__lt__`: compares frequencies only (no tie-break). -/

def lt (a b : HuffmanNode) : Bool := decide (a.freq < b.freq)

end HuffmanNode

/-- Loop of CPython `heapq._siftdown`, after `newitem = heap[pos]` has been
read; `parentpos` is `(pos - 1) / 2`, `parent` is `heap[parentpos]`, and the
final `heap[pos] = newitem` write is the `List.set` in each exit branch. -/

def siftdownLoop (heap : List HuffmanNode) (startpos pos : Nat)
    (newitem : HuffmanNode) : List HuffmanNode :=
  if _h : startpos < pos then
    if newitem.lt (heap.getD ((pos - 1) / 2) .nil) then
      siftdownLoop (heap.set pos (heap.getD ((pos - 1) / 2) .nil)) startpos
        ((pos - 1) / 2) newitem
    else
      heap.set pos newitem
  else
    heap.set pos newitem
termination_by pos
decreasing_by
  have h1 : (pos - 1) / 2 ≤ pos - 1 := Nat.div_le_self _ _
  omega

/-- CPython `heapq._siftdown`. -/

def siftdown (heap : List HuffmanNode) (startpos pos : Nat) : List HuffmanNode :=
  siftdownLoop heap startpos pos (heap.getD pos .nil)

/-- Loop of CPython `heapq._siftup`, after `newitem = heap[pos]` has been
read; `childpos` is `2 * pos + 1`, `rightpos` is `childpos + 1`, and the
conditional `childpos = rightpos` update is unrolled into the two recursive
branches. -/

def siftupLoop (heap : List HuffmanNode) (startpos pos : Nat)
    (newitem : HuffmanNode) : List HuffmanNode :=
  if _h : 2 * pos + 1 < heap.length then
    if _h2 : 2 * pos + 1 + 1 < heap.length ∧
        (heap.getD (2 * pos + 1) .nil).lt (heap.getD (2 * pos + 1 + 1) .nil)
          = false then
      siftupLoop (heap.set pos (heap.getD (2 * pos + 1 + 1) .nil)) startpos
        (2 * pos + 1 + 1) newitem
    else
      siftupLoop (heap.set pos (heap.getD (2 * pos + 1) .nil)) startpos
        (2 * pos + 1) newitem
  else
    siftdown (heap.set pos newitem) startpos pos
termination_by heap.length - pos
decreasing_by
  · simp only [List.length_set]; omega
  · simp only [List.length_set]; omega

/-- CPython `heapq._siftup`. -/

def siftup (heap : List HuffmanNode) (pos : Nat) : List HuffmanNode :=
  siftupLoop heap pos pos (heap.getD pos .nil)

/-- CPython `heapq.heappush`: append, then sift down from the new slot. -/

def heappush (heap : List HuffmanNode) (item : HuffmanNode) : List HuffmanNode :=
  siftdown (heap ++ [item]) 0 heap.length

/-- CPython `heapq.heappop`; `Option.none` models the `IndexError` raised on
an empty heap (never reached by `_build_tree`).  `heap.pop()` leaves
`heap.dropLast` behind and returns `heap.getLastD .nil`. -/

def heappop (heap : List HuffmanNode) : Option (HuffmanNode × List HuffmanNode) :=
  if heap.isEmpty then Option.none
  else if heap.dropLast.isEmpty then some (heap.getLastD .nil, heap.dropLast)
  else some (heap.dropLast.headD .nil,
    siftup (heap.dropLast.set 0 (heap.getLastD .nil)) 0)

/-- The `for i in reversed(range(n // 2))` loop of CPython `heapq.heapify`. -/

def heapifyLoop (heap : List HuffmanNode) : Nat → List HuffmanNode
  | 0 => heap
  | i + 1 => heapifyLoop (siftup heap i) i

/-- CPython `heapq.heapify`. -/

def heapify (heap : List HuffmanNode) : List HuffmanNode :=
  heapifyLoop heap (heap.length / 2)

/-- One merge-step triple `(left, right, merged)` recorded in `self.steps`
by `HuffmanTree._build_tree`. -/

abbrev MergeStep := HuffmanNode × HuffmanNode × HuffmanNode

/-- One unfolding of the `while len(heap) > 1` loop of
`HuffmanTree._build_tree`, carrying the `self.steps` accumulator, with an
explicit recursion budget.  Each iteration shrinks the heap by one (two pops,
one push), so a budget of `heap.length` steps always runs the loop to
completion (`buildLoopGo_length_one` below); the `fuel = 0` case is never
reached from `buildLoop`.  The `Option.none` results of `heappop` are
likewise unreachable: the loop guard keeps the heap length above 1. -/

def buildLoopGo : Nat → List HuffmanNode → List MergeStep →
    List HuffmanNode × List MergeStep
  | 0, heap, steps => (heap, steps)
  | fuel + 1, heap, steps =>
    if 1 < heap.length then
      match heappop heap with
      | Option.none => (heap, steps)
      | some (left, heap1) =>
        match heappop heap1 with
        | Option.none => (heap, steps)
        | some (right, heap2) =>
          buildLoopGo fuel
            (heappush heap2
              (HuffmanNode.mk Option.none (left.freq + right.freq) left right))
            (steps ++ [(left, right,
              HuffmanNode.mk Option.none (left.freq + right.freq) left right)])
    else (heap, steps)

/-- The `while len(heap) > 1` loop of `HuffmanTree._build_tree`. -/

def buildLoop (heap : List HuffmanNode) (steps : List MergeStep) :
    List HuffmanNode × List MergeStep :=
  buildLoopGo heap.length heap steps

/-- Keys of `collections.Counter(text)` in Python's insertion order, i.e.
order of first occurrence in `text`. -/

def counterKeys (text : List Char) : List Char :=
  text.foldl (fun ks c => if c ∈ ks then ks else ks ++ [c]) []

/-- Python `Counter(text).items()`: first-occurrence-ordered `(char, count)` pairs;
this is `self.frequency`. -/

def counterItems (text : List Char) : List (Char × Nat) :=
  (counterKeys text).map fun c => (c, text.count c)

/-- Assignment `d[k] = v` into a Python `dict` modelled as an association
list: replace the existing binding, else append (preserving Python's
insertion order). -/

def pyInsert {α β : Type} [BEq α] (d : List (α × β)) (k : α) (v : β) :
    List (α × β) :=
  if d.any fun p => p.1 == k then
    d.map fun p => if p.1 == k then (k, v) else p
  else d ++ [(k, v)]

/-- Python `d[k]` as an `Option` (a missing key raises `KeyError`). -/

def pyFind {α β : Type} [BEq α] (d : List (α × β)) (k : α) : Option β :=
  (d.find? fun p => p.1 == k).map Prod.snd

/-- The `if node.char is not None: self.codes[node.char] = code` statement
of `dfs`. -/

def recordCode (codes : List (Char × List Char)) (c : Option Char)
    (code : List Char) : List (Char × List Char) :=
  match c with
  | some ch => pyInsert codes ch code
  | Option.none => codes

/-- The inner `dfs` of `HuffmanTree._generate_codes`, with the mutated
`self.codes` dict passed explicitly: record `codes[char] = code` on nodes
whose `char` is not `None`, then recurse left with `code + '0'` and right
with `code + '1'`. -/

def dfsCodes : HuffmanNode → List Char → List (Char × List Char) →
    List (Char × List Char)
  | .nil, _, codes => codes
  | .mk c _ l r, code, codes =>
    dfsCodes r (code ++ ['1'])
      (dfsCodes l (code ++ ['0']) (recordCode codes c code))

/-- Method `HuffmanTree._generate_codes` (the `if self.root:` truthiness test is
`root ≠ nil`, since `HuffmanNode` objects are always truthy in Python). -/

def generateCodes (root : HuffmanNode) : List (Char × List Char) :=
  match root with
  | .nil => []
  | .mk c f l r => dfsCodes (.mk c f l r) [] []

/-- The generator `(self.codes[c] for c in self.text)` of
`HuffmanTree._encode_text`: `Option.none` models the `KeyError` raised when
a character of the text has no entry in `self.codes`. -/

def mapCodes (codes : List (Char × List Char)) : List Char →
    Option (List (List Char))
  | [] => some []
  | c :: cs =>
    match pyFind codes c, mapCodes codes cs with
    | some s, some rest => some (s :: rest)
    | _, _ => Option.none

/-- Method `HuffmanTree._encode_text`: `''.join(self.codes[c] for c in self.text)`. -/

def encodeText (codes : List (Char × List Char)) (text : List Char) :
    Option (List Char) :=
  (mapCodes codes text).map List.flatten

/-- The fields of a `HuffmanTree` object after `__init__` has run. -/

structure HuffmanTree where
  text : List Char
  frequency : List (Char × Nat)
  root : HuffmanNode
  codes : List (Char × List Char)
  encoded : Option (List Char)
  steps : List MergeStep
deriving DecidableEq

/-- Constructor `HuffmanTree.__init__` followed by `_build_tree`, `_generate_codes` and
`_encode_text`: one leaf per `frequency.items()` entry, heapify, merge loop,
`self.root = heap[0] if heap else None`, code generation, text encoding. -/

def buildTree (text : List Char) : HuffmanTree :=
  { text := text
    frequency := counterItems text
    root := (buildLoop (heapify ((counterItems text).map fun p =>
        HuffmanNode.mk (some p.1) p.2 .nil .nil)) []).1.headD .nil
    codes := generateCodes ((buildLoop (heapify ((counterItems text).map fun p =>
        HuffmanNode.mk (some p.1) p.2 .nil .nil)) []).1.headD .nil)
    encoded := encodeText
      (generateCodes ((buildLoop (heapify ((counterItems text).map fun p =>
        HuffmanNode.mk (some p.1) p.2 .nil .nil)) []).1.headD .nil)) text
    steps := (buildLoop (heapify ((counterItems text).map fun p =>
        HuffmanNode.mk (some p.1) p.2 .nil .nil)) []).2 }

/-- Method `HuffmanTree.get_compression_stats`; the percentage is exact (`ℚ`).
For trees produced by `buildTree`, `encoded` is always `some`
(see `buildTree_encoded_isSome`), so `getD []` only provides totality. -/

def getCompressionStats (t : HuffmanTree) : Nat × Nat × ℚ :=
  (t.text.length * 8, (t.encoded.getD []).length,
    if t.text.length * 8 = 0 then 0
    else 100 * ((t.text.length * 8 : ℚ) - (t.encoded.getD []).length) /
      (t.text.length * 8))

/-! `src/visualizer.py`: `HuffmanTreeVisualizer` layout and animation.
`self.node_radius = 25`, `self.level_gap = 90`, `self.h_gap = 30` are the
instance attributes set in `__init__`. -/

/-- Attribute `self.node_radius`. -/

def nodeRadius : Nat := 25

/-- Attribute `self.level_gap`. -/

def levelGap : Nat := 90

/-- Attribute `self.h_gap`. -/

def hGap : Nat := 30

/-- Method `HuffmanTreeVisualizer._compute_subtree_width`: number of leaves of a
subtree, `0` for an absent (`None`) node. -/

def computeSubtreeWidth : HuffmanNode → Nat
  | .nil => 0
  | .mk _ _ .nil .nil => 1
  | .mk _ _ l r => computeSubtreeWidth l + computeSubtreeWidth r

/-- Method `HuffmanTreeVisualizer._assign_positions`.  The Python function mutates
the `positions` dict and returns a number; here it returns
`(return value, updated positions)`.  The dict lookups
`positions[node.left]`/`positions[node.right]` are modelled with
`(pyFind …).getD (0, 0)`; they always succeed on the code's call paths
(see the claim on position coverage below).  The `left_x`/`right_x` local
variables of the source are dead (never read after assignment) and are not
bound here; the recursive calls they came from are kept, since those update
`positions`. -/

def assignPositions (node : HuffmanNode) (x y xSpacing : ℚ)
    (positions : List (HuffmanNode × ℚ × ℚ)) :
    ℚ × List (HuffmanNode × ℚ × ℚ) :=
  match node with
  | .nil => (x, positions)
  | .mk c f l r =>
    let lw : ℚ := computeSubtreeWidth l
    let rw' : ℚ := computeSubtreeWidth r
    let pos1 := if l ≠ .nil then
        (assignPositions l x (y + (levelGap : ℚ)) xSpacing positions).2
      else positions
    let pos2 := if r ≠ .nil then
        (assignPositions r (x + lw * xSpacing) (y + (levelGap : ℚ)) xSpacing
          pos1).2
      else pos1
    let myX : ℚ :=
      if l ≠ .nil ∧ r ≠ .nil then
        (((pyFind pos2 l).getD (0, 0)).1 + ((pyFind pos2 r).getD (0, 0)).1) / 2
      else if l ≠ .nil then ((pyFind pos2 l).getD (0, 0)).1 + xSpacing
      else if r ≠ .nil then ((pyFind pos2 r).getD (0, 0)).1 - xSpacing
      else x
    (if lw + rw' > 0 then x + (lw + rw') * xSpacing else x + xSpacing,
      pyInsert pos2 (HuffmanNode.mk c f l r) (myX, y))

/-- Method `HuffmanTreeVisualizer._layout_tree`: returns the positions dict and the
computed `canvas_width` (all intermediate quantities are Python ints here;
`start_x = canvas_width // 2` is integer division). -/

def layoutTree (root : HuffmanNode) : List (HuffmanNode × ℚ × ℚ) × Nat :=
  ((assignPositions root
      ((max 600 (computeSubtreeWidth root * max (nodeRadius * 2 + hGap) 60
          + 2 * nodeRadius) / 2 : Nat) : ℚ)
      ((nodeRadius : ℚ) + 40)
      ((max (nodeRadius * 2 + hGap) 60 : Nat) : ℚ) []).2,
    max 600 (computeSubtreeWidth root * max (nodeRadius * 2 + hGap) 60
      + 2 * nodeRadius))

/-- One animation frame, abstracted to the data that determines the drawn
image: the root of the subtree drawn for this frame and the highlighted
`(left, right)` pair, if any (`_draw_tree_on_image`'s `highlight` argument).
Positions are recomputed per frame from the root via `_layout_tree` and are
determined by it. -/

structure FrameState where
  root : HuffmanNode
  highlight : Option (HuffmanNode × HuffmanNode)
deriving DecidableEq

/-- Generator `HuffmanTreeVisualizer.stream_animation_frames_to_images`, abstracted to
the sequence of `FrameState`s of the yielded images: one frame per merge
step, drawn from the step's `merged` node with its `(left, right)` pair
highlighted, followed by `int(1.5 / delay)` frames of the completed tree
with no highlight.  `Option.none` models the two ways the generator can
raise: `delay = 0` (`ZeroDivisionError` in `int(1.5 / delay)`), and a tree
with an absent root when at least one trailing frame is due (`min()` over
the empty `positions.values()` raises `ValueError`). -/

def streamAnimationFrames (t : HuffmanTree) (delay : ℚ) :
    Option (List FrameState) :=
  if delay = 0 then Option.none
  else if 0 < (⌊(3 / 2 : ℚ) / delay⌋).toNat ∧ t.root = .nil then Option.none
  else some ((t.steps.map fun s => ⟨s.2.2, some (s.1, s.2.1)⟩) ++
    List.replicate (⌊(3 / 2 : ℚ) / delay⌋).toNat ⟨t.root, Option.none⟩)

/-! ### Reachable nodes and the both-children predicate (for C9) -/

/-- The nodes reachable from a root by following `left`/`right` (the nodes
visited by `_draw_tree`, which recurses into every non-`None` child). -/

def HuffmanNode.nodes : HuffmanNode → List HuffmanNode
  | .nil => []
  | .mk c f l r => HuffmanNode.mk c f l r :: (nodes l ++ nodes r)

/-- Every internal (non-leaf) node of the tree has both children present
(the hypothesis of the position-coverage claim; trees built by
`_build_tree` always satisfy it). -/

def bothChildren : HuffmanNode → Bool
  | .nil => true
  | .mk _ _ .nil .nil => true
  | .mk _ _ .nil (.mk _ _ _ _) => false
  | .mk _ _ (.mk _ _ _ _) .nil => false
  | .mk _ _ l r => bothChildren l && bothChildren r

/-! ### Invariants of the `_build_tree` merge loop -/

/-- The multiset of characters stored in a subtree (in built trees these sit
exactly at the leaves). -/

def HuffmanNode.chars : HuffmanNode → Multiset Char
  | .nil => 0
  | .mk c _ l r =>
    (match c with | some ch => {ch} | Option.none => 0) + chars l + chars r

/-- Characters of a whole heap (as a multiset of nodes). -/

def heapChars (m : Multiset HuffmanNode) : Multiset Char :=
  (m.map HuffmanNode.chars).sum

/-- Wellformed node: a leaf carries a symbol and no children, an internal
node carries no symbol and two wellformed children.  All heap elements of
`_build_tree` are wellformed. -/

def wfb : HuffmanNode → Bool
  | .nil => false
  | .mk (some _) _ .nil .nil => true
  | .mk Option.none _ (.mk c₁ f₁ l₁ r₁) (.mk c₂ f₂ l₂ r₂) =>
    wfb (.mk c₁ f₁ l₁ r₁) && wfb (.mk c₂ f₂ l₂ r₂)
  | _ => false

/-! ### The code table produced by `_generate_codes` -/

/-- The entries `dfs` appends for one subtree, in visit order: the node's
own `(char, code)` entry when `char` is not `None`, then the left subtree
with `code + '0'`, then the right subtree with `code + '1'`. -/

def ownEntry (c : Option Char) (code : List Char) : List (Char × List Char) :=
  match c with
  | some ch => [(ch, code)]
  | Option.none => []

def codesList : HuffmanNode → List Char → List (Char × List Char)
  | .nil, _ => []
  | .mk c _ l r, code =>
    ownEntry c code ++ codesList l (code ++ ['0']) ++
      codesList r (code ++ ['1'])

theorem siftdownLoop_length (heap : List HuffmanNode) (startpos pos : Nat)
    (newitem : HuffmanNode) :
    (siftdownLoop heap startpos pos newitem).length = heap.length := by
  induction heap, startpos, pos, newitem using siftdownLoop.induct with
  | case1 heap startpos pos newitem h hlt ih =>
    rw [siftdownLoop, dif_pos h, if_pos hlt, ih, List.length_set]
  | case2 heap startpos pos newitem h hlt =>
    rw [siftdownLoop, dif_pos h, if_neg hlt, List.length_set]
  | case3 heap startpos pos newitem h =>
    rw [siftdownLoop, dif_neg h, List.length_set]

theorem siftdown_length (heap : List HuffmanNode) (startpos pos : Nat) :
    (siftdown heap startpos pos).length = heap.length := by
  rw [siftdown, siftdownLoop_length]

theorem siftupLoop_length (heap : List HuffmanNode) (startpos pos : Nat)
    (newitem : HuffmanNode) :
    (siftupLoop heap startpos pos newitem).length = heap.length := by
  induction heap, startpos, pos, newitem using siftupLoop.induct with
  | case1 heap startpos pos newitem h h2 ih =>
    rw [siftupLoop, dif_pos h, dif_pos h2, ih, List.length_set]
  | case2 heap startpos pos newitem h h2 ih =>
    rw [siftupLoop, dif_pos h, dif_neg h2, ih, List.length_set]
  | case3 heap startpos pos newitem h =>
    rw [siftupLoop, dif_neg h, siftdown_length, List.length_set]

theorem siftup_length (heap : List HuffmanNode) (pos : Nat) :
    (siftup heap pos).length = heap.length := by
  rw [siftup, siftupLoop_length]

theorem heappush_length (heap : List HuffmanNode) (item : HuffmanNode) :
    (heappush heap item).length = heap.length + 1 := by
  rw [heappush, siftdown_length]
  simp

theorem heappop_length (heap : List HuffmanNode) (a : HuffmanNode)
    (rest : List HuffmanNode) (h : heappop heap = some (a, rest)) :
    heap.length = rest.length + 1 := by
  rw [heappop] at h
  by_cases he : heap.isEmpty
  · rw [if_pos he] at h
    exact absurd h (by simp)
  · rw [if_neg he] at h
    have hne : heap ≠ [] := by
      intro hh
      exact he (by simp [hh])
    have hlen : heap.length ≠ 0 := fun hh => hne (List.length_eq_zero.mp hh)
    by_cases hr : heap.dropLast.isEmpty
    · rw [if_pos hr] at h
      cases h
      rw [List.length_dropLast]
      omega
    · rw [if_neg hr] at h
      cases h
      rw [siftup_length, List.length_set, List.length_dropLast]
      omega

theorem heapifyLoop_length (heap : List HuffmanNode) (n : Nat) :
    (heapifyLoop heap n).length = heap.length := by
  induction n generalizing heap with
  | zero => rfl
  | succ i ih => rw [heapifyLoop, ih, siftup_length]

theorem heapify_length (heap : List HuffmanNode) :
    (heapify heap).length = heap.length := by
  rw [heapify, heapifyLoop_length]

/-! ### Concrete runs of the pipeline

The following evaluations are checked by kernel reduction; they are the
embedded counterparts of running `HuffmanTree(...)` on the inputs the spec
singles out. -/

set_option maxRecDepth 100000

unseal siftdownLoop siftupLoop in

/-- Evaluation of `HuffmanTree("")`. -/

theorem buildTree_empty :
    buildTree [] = HuffmanTree.mk [] [] .nil [] (some []) [] := by decide

unseal siftdownLoop siftupLoop in

/-- Evaluation of `HuffmanTree("x")`. -/

theorem buildTree_x :
    buildTree ['x'] = HuffmanTree.mk ['x'] [('x', 1)]
      (.mk (some 'x') 1 .nil .nil) [('x', [])] (some []) [] := by decide

unseal siftdownLoop siftupLoop in

/-- Evaluation of `HuffmanTree("aabb")`: `heapq.heapify` reorders the leaf
list `[a, b]` to `[b, a]`, so the equal-frequency tie is resolved by the
heap's array mechanics and the *second*-seen symbol `b` is popped first,
becoming the left child with code `"0"`. -/

theorem buildTree_aabb :
    buildTree ['a', 'a', 'b', 'b'] = HuffmanTree.mk
      ['a', 'a', 'b', 'b'] [('a', 2), ('b', 2)]
      (.mk Option.none 4 (.mk (some 'b') 2 .nil .nil)
        (.mk (some 'a') 2 .nil .nil))
      [('b', ['0']), ('a', ['1'])]
      (some ['1', '1', '0', '0'])
      [(.mk (some 'b') 2 .nil .nil, .mk (some 'a') 2 .nil .nil,
        .mk Option.none 4 (.mk (some 'b') 2 .nil .nil)
          (.mk (some 'a') 2 .nil .nil))] := by decide

unseal siftdownLoop siftupLoop in

/-- Evaluation of `HuffmanTree("ab")`: same tie-break shape as `"aabb"`. -/

theorem buildTree_ab :
    buildTree ['a', 'b'] = HuffmanTree.mk ['a', 'b'] [('a', 1), ('b', 1)]
      (.mk Option.none 2 (.mk (some 'b') 1 .nil .nil)
        (.mk (some 'a') 1 .nil .nil))
      [('b', ['0']), ('a', ['1'])]
      (some ['1', '0'])
      [(.mk (some 'b') 1 .nil .nil, .mk (some 'a') 1 .nil .nil,
        .mk Option.none 2 (.mk (some 'b') 1 .nil .nil)
          (.mk (some 'a') 1 .nil .nil))] := by decide

/-- Evaluation `int(1.5 / 0.7) = 2` (the default `delay` of the animation export). -/

theorem floor_three_halves_div_default_delay :
    (⌊(3 / 2 : ℚ) / (7 / 10)⌋).toNat = 2 := by
  norm_num
  rfl

/-! ### C1 -/

/-- C1, counterexample: on `"aabb"` the first-seen symbol `'a'` does *not*
become the left child of the root and does *not* receive code `"0"`:
the left child holds `'b'`, and `'a'`'s code is `"1"`.  There is no
creation-sequence tie-break in the code (`HuffmanNode.__lt__` compares
frequencies only). -/

theorem aabb_first_seen_symbol_not_left_child :
    (buildTree ['a', 'a', 'b', 'b']).root.left.char = some 'b' ∧
    pyFind (buildTree ['a', 'a', 'b', 'b']).codes 'a' = some ['1'] ∧
    some ['1'] ≠ some ['0'] := by
  rw [buildTree_aabb]
  exact ⟨rfl, by decide, by decide⟩

/-- C1, amended: on `"aabb"` there is exactly one merge step and it produces
the root directly from the two leaves; both codes have length 1, one `"0"`
and one `"1"`; but the assignment is decided by `heapq`'s array mechanics
(no sequence-number tie-break exists), and the *second*-seen symbol `'b'`
becomes the left child with code `"0"`, while `'a'` receives `"1"`. -/

theorem aabb_one_merge_step_tie_to_second_seen :
    (buildTree ['a', 'a', 'b', 'b']).steps =
      [(.mk (some 'b') 2 .nil .nil, .mk (some 'a') 2 .nil .nil,
        (buildTree ['a', 'a', 'b', 'b']).root)] ∧
    (buildTree ['a', 'a', 'b', 'b']).root =
      .mk Option.none 4 (.mk (some 'b') 2 .nil .nil)
        (.mk (some 'a') 2 .nil .nil) ∧
    (buildTree ['a', 'a', 'b', 'b']).codes = [('b', ['0']), ('a', ['1'])] := by
  rw [buildTree_aabb]
  exact ⟨rfl, rfl, rfl⟩

/-! ### C5 -/

/-- C5: `HuffmanTree("x")` yields a single leaf root `('x', 1)`, no merge
steps, the code table `{x : ""}`, an empty encoded string, and compression
stats `(8, 0, 100.0)`. -/

theorem single_symbol_degenerate_tree :
    (buildTree ['x']).root = .mk (some 'x') 1 .nil .nil ∧
    (buildTree ['x']).steps = [] ∧
    (buildTree ['x']).codes = [('x', [])] ∧
    (buildTree ['x']).encoded = some [] ∧
    getCompressionStats (buildTree ['x']) = (8, 0, 100) := by
  rw [buildTree_x]
  refine ⟨rfl, rfl, rfl, rfl, ?_⟩
  simp [getCompressionStats]

/-! ### C6 -/

/-- C6: `HuffmanTree("")` does not fail: the root is absent (`None`), the
merge-step list, code table and encoded string are empty, and the
compression stats are `(0, 0, 0)`. -/

theorem empty_input_degenerate_state :
    (buildTree []).root = .nil ∧
    (buildTree []).steps = [] ∧
    (buildTree []).codes = [] ∧
    (buildTree []).encoded = some [] ∧
    getCompressionStats (buildTree []) = (0, 0, 0) := by
  rw [buildTree_empty]
  refine ⟨rfl, rfl, rfl, rfl, ?_⟩
  simp [getCompressionStats]

/-! ### C8 -/

/-- C8, counterexample: `_layout_tree(None)` returns the *minimum canvas
width `600`*, not a zero-sized bounding box (the position mapping is indeed
empty and no error is raised). -/

theorem layout_absent_root_width_not_zero :
    (layoutTree .nil).2 = 600 ∧ (600 : Nat) ≠ 0 := by
  exact ⟨by decide, by decide⟩

/-- C8, amended: layout on an absent root returns the empty position mapping
together with the clamped minimum canvas width `600` (the
`max(600, ...)` floor), and no error is raised. -/

theorem layout_absent_root_empty_positions :
    layoutTree .nil = ([], 600) := by decide

/-! ### C4 -/

/-- C4, counterexample: on the tree for `"aabb"` (one merge step) and the
default `delay = 0.7`, the animation yields `3` frames, not
`length(steps) + 1 = 2`: the code appends `int(1.5 / delay) = 2` copies of
the final full-tree frame ("Add several frames of the full tree at the
end"), not one. -/

theorem frame_count_not_steps_plus_one :
    (streamAnimationFrames (buildTree ['a', 'a', 'b', 'b']) (7 / 10)).map
      List.length = some 3 ∧
    (buildTree ['a', 'a', 'b', 'b']).steps.length + 1 = 2 := by
  rw [buildTree_aabb]
  constructor
  · rw [streamAnimationFrames]
    rw [if_neg (by norm_num)]
    rw [floor_three_halves_div_default_delay]
    rw [if_neg (by simp)]
    simp
  · rfl

/-- C4, amended: for every tree with a present root and a positive `delay`,
the generator yields exactly `length(steps) + int(1.5 / delay)` frames
(`2` trailing frames at the default `delay = 0.7`): one frame per merge
step, in step order, whose drawn root is that step's `merged` node and whose
highlighted pair is that step's consumed `(left, right)` pair, followed by
`int(1.5 / delay)` identical frames of the completed tree with no
highlighted pair. -/

theorem frames_are_steps_then_final_copies (t : HuffmanTree) (delay : ℚ)
    (hd : 0 < delay) (hr : t.root ≠ .nil) :
    ∃ fs, streamAnimationFrames t delay = some fs ∧
      fs.length = t.steps.length + (⌊(3 / 2 : ℚ) / delay⌋).toNat ∧
      (∀ i, i < t.steps.length →
        fs.getD i ⟨.nil, Option.none⟩ =
          ⟨(t.steps.getD i (.nil, .nil, .nil)).2.2,
            some ((t.steps.getD i (.nil, .nil, .nil)).1,
              (t.steps.getD i (.nil, .nil, .nil)).2.1)⟩) ∧
      (∀ j, t.steps.length ≤ j → j < fs.length →
        fs.getD j ⟨.nil, Option.none⟩ = ⟨t.root, Option.none⟩) := by
  refine ⟨(t.steps.map fun s => ⟨s.2.2, some (s.1, s.2.1)⟩) ++
    List.replicate (⌊(3 / 2 : ℚ) / delay⌋).toNat ⟨t.root, Option.none⟩,
    ?_, ?_, ?_, ?_⟩
  · rw [streamAnimationFrames, if_neg (by intro h; rw [h] at hd; exact lt_irrefl 0 hd),
      if_neg (by intro h; exact hr h.2)]
  · simp
  · intro i hi
    have hi' : i < (t.steps.map fun s =>
        (⟨s.2.2, some (s.1, s.2.1)⟩ : FrameState)).length := by
      simpa using hi
    rw [List.getD_eq_getElem?_getD, List.getElem?_append_left hi',
      List.getElem?_map, List.getElem?_eq_getElem hi,
      List.getD_eq_getElem?_getD, List.getElem?_eq_getElem hi]
    rfl
  · intro j hj hjlen
    have hj' : (t.steps.map fun s =>
        (⟨s.2.2, some (s.1, s.2.1)⟩ : FrameState)).length ≤ j := by
      simpa using hj
    rw [List.getD_eq_getElem?_getD, List.getElem?_append_right hj',
      List.getElem?_replicate]
    rw [if_pos (by simp at hjlen hj' ⊢; omega)]
    rfl

/-- C4, witness for the amended theorem: the `"ab"` tree with the default
delay. -/

theorem frames_are_steps_then_final_copies_witness :
    0 < (7 / 10 : ℚ) ∧ (buildTree ['a', 'b']).root ≠ .nil ∧
    (∃ fs, streamAnimationFrames (buildTree ['a', 'b']) (7 / 10) = some fs ∧
      fs.length = (buildTree ['a', 'b']).steps.length +
        (⌊(3 / 2 : ℚ) / (7 / 10)⌋).toNat ∧
      (∀ i, i < (buildTree ['a', 'b']).steps.length →
        fs.getD i ⟨.nil, Option.none⟩ =
          ⟨((buildTree ['a', 'b']).steps.getD i (.nil, .nil, .nil)).2.2,
            some (((buildTree ['a', 'b']).steps.getD i (.nil, .nil, .nil)).1,
              ((buildTree ['a', 'b']).steps.getD i (.nil, .nil, .nil)).2.1)⟩) ∧
      (∀ j, (buildTree ['a', 'b']).steps.length ≤ j → j < fs.length →
        fs.getD j ⟨.nil, Option.none⟩ =
          ⟨(buildTree ['a', 'b']).root, Option.none⟩)) :=
  ⟨by norm_num, (by rw [buildTree_ab]; exact fun h => HuffmanNode.noConfusion h),
    frames_are_steps_then_final_copies (buildTree ['a', 'b']) (7 / 10)
      (by norm_num)
      (by rw [buildTree_ab]; exact fun h => HuffmanNode.noConfusion h)⟩

/-! ### Association-list dictionary lemmas (for the positions dict) -/

theorem find?_map_replace {α β : Type} [BEq α] [LawfulBEq α]
    (d : List (α × β)) (k : α) (v : β) {k' : α} (hk : k' ≠ k) :
    ((d.map fun p => if p.1 == k then (k, v) else p).find?
        fun p => p.1 == k') =
      d.find? fun p => p.1 == k' := by
  induction d with
  | nil => rfl
  | cons p d ih =>
    by_cases hp : p.1 == k
    · have hpk : p.1 = k := by simpa using hp
      have h1 : (k == k') = false := beq_eq_false_iff_ne.mpr fun h => hk h.symm
      have h2 : (p.1 == k') = false := by
        rw [hpk]
        exact h1
      simp only [List.map_cons, if_pos hp, List.find?_cons, h1, h2]
      exact ih
    · simp only [List.map_cons, if_neg hp, List.find?_cons]
      by_cases hpk' : p.1 == k'
      · simp [hpk']
      · simp only [hpk']
        exact ih

theorem find?_map_replace_self {α β : Type} [BEq α] [LawfulBEq α]
    (d : List (α × β)) (k : α) (v : β) :
    (d.any fun p => p.1 == k) = true →
      ((d.map fun p => if p.1 == k then (k, v) else p).find?
          fun p => p.1 == k) = some (k, v) := by
  induction d with
  | nil => intro h; simp at h
  | cons p d ih =>
    intro h
    by_cases hp : p.1 == k
    · simp only [List.map_cons, if_pos hp, List.find?_cons, beq_self_eq_true]
    · have h' : (d.any fun p => p.1 == k) = true := by
        simp only [List.any_cons, hp, Bool.false_or] at h
        exact h
      have hp' : (p.1 == k) = false := by rwa [Bool.not_eq_true] at hp
      simp only [List.map_cons, List.find?_cons, hp']
      simpa [hp'] using ih h'

theorem pyFind_pyInsert_self {α β : Type} [BEq α] [LawfulBEq α]
    (d : List (α × β)) (k : α) (v : β) :
    pyFind (pyInsert d k v) k = some v := by
  rw [pyInsert]
  by_cases h : d.any fun p => p.1 == k
  · rw [if_pos h, pyFind, find?_map_replace_self d k v h]
    rfl
  · rw [if_neg h, pyFind, List.find?_append]
    have hnone : (d.find? fun p => p.1 == k) = none := by
      rw [List.find?_eq_none]
      intro x hx
      have h2 : (d.any fun p => p.1 == k) = false := by
        rwa [Bool.not_eq_true] at h
      rw [List.any_eq_false] at h2
      exact h2 x hx
    rw [hnone]
    simp [List.find?]

theorem pyFind_pyInsert_ne {α β : Type} [BEq α] [LawfulBEq α]
    (d : List (α × β)) (k : α) (v : β) {k' : α} (hk : k' ≠ k) :
    pyFind (pyInsert d k v) k' = pyFind d k' := by
  rw [pyInsert]
  by_cases h : d.any fun p => p.1 == k
  · rw [if_pos h, pyFind, find?_map_replace d k v hk, pyFind]
  · rw [if_neg h, pyFind, List.find?_append, pyFind]
    have h1 : (k == k') = false := beq_eq_false_iff_ne.mpr fun h => hk h.symm
    have : (([(k, v)]).find? fun p => p.1 == k') = none := by
      simp [List.find?, h1]
    rw [this, Option.or_none]

theorem pyFind_pyInsert_isSome {α β : Type} [BEq α] [LawfulBEq α]
    (d : List (α × β)) (k : α) (v : β) {k' : α}
    (h : (pyFind d k').isSome) :
    (pyFind (pyInsert d k v) k').isSome := by
  by_cases hk : k' = k
  · subst hk
    rw [pyFind_pyInsert_self]
    rfl
  · rw [pyFind_pyInsert_ne d k v hk]
    exact h

theorem assignPositions_covers (node : HuffmanNode) :
    ∀ (x y sp : ℚ) (d : List (HuffmanNode × ℚ × ℚ)),
      (∀ k, (pyFind d k).isSome →
        (pyFind (assignPositions node x y sp d).2 k).isSome) ∧
      (∀ n ∈ node.nodes, (pyFind (assignPositions node x y sp d).2 n).isSome) := by
  induction node with
  | nil =>
    intro x y sp d
    constructor
    · intro k hk
      simpa [assignPositions] using hk
    · intro n hn
      simp [HuffmanNode.nodes] at hn
  | mk c f l r ihl ihr =>
    intro x y sp d
    set pos1 := if l ≠ .nil then
        (assignPositions l x (y + (levelGap : ℚ)) sp d).2
      else d with hpos1
    set pos2 := if r ≠ .nil then
        (assignPositions r (x + (computeSubtreeWidth l : ℚ) * sp)
          (y + (levelGap : ℚ)) sp pos1).2
      else pos1 with hpos2
    have h1 : ∀ k, (pyFind d k).isSome → (pyFind pos1 k).isSome := by
      by_cases hl : l ≠ .nil
      · rw [hpos1, if_pos hl]
        exact fun k hk => (ihl x (y + (levelGap : ℚ)) sp d).1 k hk
      · rw [hpos1, if_neg hl]
        exact fun k hk => hk
    have h1c : ∀ n ∈ l.nodes, (pyFind pos1 n).isSome := by
      by_cases hl : l ≠ .nil
      · rw [hpos1, if_pos hl]
        exact (ihl x (y + (levelGap : ℚ)) sp d).2
      · intro n hn
        rw [not_not.mp hl] at hn
        simp [HuffmanNode.nodes] at hn
    have h2 : ∀ k, (pyFind pos1 k).isSome → (pyFind pos2 k).isSome := by
      by_cases hr : r ≠ .nil
      · rw [hpos2, if_pos hr]
        exact fun k hk =>
          (ihr (x + (computeSubtreeWidth l : ℚ) * sp) (y + (levelGap : ℚ)) sp
            pos1).1 k hk
      · rw [hpos2, if_neg hr]
        exact fun k hk => hk
    have h2c : ∀ n ∈ r.nodes, (pyFind pos2 n).isSome := by
      by_cases hr : r ≠ .nil
      · rw [hpos2, if_pos hr]
        exact (ihr (x + (computeSubtreeWidth l : ℚ) * sp) (y + (levelGap : ℚ))
          sp pos1).2
      · intro n hn
        rw [not_not.mp hr] at hn
        simp [HuffmanNode.nodes] at hn
    obtain ⟨v, hres⟩ : ∃ v, (assignPositions (.mk c f l r) x y sp d).2 =
        pyInsert pos2 (.mk c f l r) v := by
      rw [hpos2, hpos1]
      exact ⟨_, rfl⟩
    rw [hres]
    constructor
    · intro k hk
      exact pyFind_pyInsert_isSome _ _ _ (h2 k (h1 k hk))
    · intro n hn
      rw [HuffmanNode.nodes, List.mem_cons, List.mem_append] at hn
      rcases hn with h | h | h
      · subst h
        rw [pyFind_pyInsert_self]
        rfl
      · exact pyFind_pyInsert_isSome _ _ _ (h2 n (h1c n h))
      · exact pyFind_pyInsert_isSome _ _ _ (h2c n h)

/-- C9: for every tree in which each internal node has both children, the
position mapping returned by `_layout_tree` contains an entry for every
node reachable from the root, so the `positions[node]` lookups performed
by `_draw_tree` never fail. -/

theorem layout_positions_cover_reachable (root : HuffmanNode)
    (h : bothChildren root = true) :
    ∀ n ∈ root.nodes, (pyFind (layoutTree root).1 n).isSome := by
  intro n hn
  exact (assignPositions_covers root _ _ _ []).2 n hn

/-! ### The heap operations permute the heap

`_build_tree` relies on `heapq` only reordering the node list (plus the
pushed/popped elements); these lemmas state that as multiset equations. -/

theorem list_set_getElem_self {α : Type} (l : List α) (i : Nat)
    (h : i < l.length) : l.set i l[i] = l := by
  rw [List.set_eq_take_cons_drop _ h, List.getElem_cons_drop l i h,
    List.take_append_drop]

theorem list_headD_eq_getElem {α : Type} (l : List α) (d : α)
    (h : 0 < l.length) : l.headD d = l[0] := by
  cases l with
  | nil => simp at h
  | cons x xs => rfl

theorem coe_set_add {α : Type} (l : List α) (i : Nat) (a : α)
    (h : i < l.length) :
    (↑(l.set i a) : Multiset α) + {l[i]} = ↑l + {a} := by
  conv_rhs => rw [← List.take_append_drop i l]
  rw [List.set_eq_take_cons_drop _ h, ← List.getElem_cons_drop l i h]
  rw [← Multiset.coe_add, ← Multiset.coe_add, ← Multiset.cons_coe,
    ← Multiset.cons_coe, ← Multiset.singleton_add, ← Multiset.singleton_add]
  abel

theorem set_set_coe {α : Type} (l : List α) (i j : Nat) (a : α)
    (hi : i < l.length) (hj : j < l.length) (hij : i ≠ j) :
    (↑((l.set i l[j]).set j a) : Multiset α) = ↑(l.set i a) := by
  have hj' : j < (l.set i l[j]).length := by
    rw [List.length_set]
    exact hj
  have e1 := coe_set_add (l.set i l[j]) j a hj'
  have eA : (l.set i l[j])[j] = l[j] := List.getElem_set_ne hij hj'
  rw [eA] at e1
  have e2 := coe_set_add l i (l[j]) hi
  have e3 := coe_set_add l i a hi
  have key : (↑((l.set i l[j]).set j a) : Multiset α) + {l[j]} + {l[i]}
      = ↑(l.set i a) + {l[j]} + {l[i]} := by
    calc (↑((l.set i l[j]).set j a) : Multiset α) + {l[j]} + {l[i]}
        = ↑(l.set i l[j]) + {a} + {l[i]} := by rw [e1]
      _ = ↑(l.set i l[j]) + {l[i]} + {a} := by abel
      _ = ↑l + {l[j]} + {a} := by rw [e2]
      _ = (↑l + {a}) + {l[j]} := by abel
      _ = ↑(l.set i a) + {l[i]} + {l[j]} := by rw [← e3]
      _ = ↑(l.set i a) + {l[j]} + {l[i]} := by abel
  exact add_right_cancel (add_right_cancel key)

theorem siftdownLoop_perm (heap : List HuffmanNode) (startpos pos : Nat)
    (newitem : HuffmanNode) (h : pos < heap.length) :
    (↑(siftdownLoop heap startpos pos newitem) : Multiset HuffmanNode)
      = ↑(heap.set pos newitem) := by
  induction heap, startpos, pos, newitem using siftdownLoop.induct with
  | case1 heap startpos pos newitem h0 hlt ih =>
    have hdiv : (pos - 1) / 2 ≤ pos - 1 := Nat.div_le_self _ _
    have hpp : (pos - 1) / 2 < heap.length := by omega
    have hppset : (pos - 1) / 2 < (heap.set pos
        (heap.getD ((pos - 1) / 2) .nil)).length := by
      rw [List.length_set]
      exact hpp
    have hget : heap.getD ((pos - 1) / 2) .nil = heap[(pos - 1) / 2] :=
      List.getD_eq_getElem heap .nil hpp
    rw [siftdownLoop, dif_pos h0, if_pos hlt, ih hppset]
    rw [hget]
    exact set_set_coe heap pos ((pos - 1) / 2) newitem h hpp (by omega)
  | case2 heap startpos pos newitem h0 hlt =>
    rw [siftdownLoop, dif_pos h0, if_neg hlt]
  | case3 heap startpos pos newitem h0 =>
    rw [siftdownLoop, dif_neg h0]

theorem siftdown_perm (heap : List HuffmanNode) (startpos pos : Nat)
    (h : pos < heap.length) :
    (↑(siftdown heap startpos pos) : Multiset HuffmanNode) = ↑heap := by
  rw [siftdown, siftdownLoop_perm heap startpos pos _ h,
    List.getD_eq_getElem heap .nil h, list_set_getElem_self heap pos h]

theorem siftupLoop_perm (heap : List HuffmanNode) (startpos pos : Nat)
    (newitem : HuffmanNode) (h : pos < heap.length) :
    (↑(siftupLoop heap startpos pos newitem) : Multiset HuffmanNode)
      = ↑(heap.set pos newitem) := by
  induction heap, startpos, pos, newitem using siftupLoop.induct with
  | case1 heap startpos pos newitem h0 h2 ih =>
    have hcp : 2 * pos + 1 + 1 < heap.length := h2.1
    have hcpset : 2 * pos + 1 + 1 < (heap.set pos
        (heap.getD (2 * pos + 1 + 1) .nil)).length := by
      rw [List.length_set]
      exact hcp
    have hget : heap.getD (2 * pos + 1 + 1) .nil = heap[2 * pos + 1 + 1] :=
      List.getD_eq_getElem heap .nil hcp
    rw [siftupLoop, dif_pos h0, dif_pos h2, ih hcpset, hget]
    exact set_set_coe heap pos (2 * pos + 1 + 1) newitem h hcp (by omega)
  | case2 heap startpos pos newitem h0 h2 ih =>
    have hcp : 2 * pos + 1 < heap.length := h0
    have hcpset : 2 * pos + 1 < (heap.set pos
        (heap.getD (2 * pos + 1) .nil)).length := by
      rw [List.length_set]
      exact hcp
    have hget : heap.getD (2 * pos + 1) .nil = heap[2 * pos + 1] :=
      List.getD_eq_getElem heap .nil hcp
    rw [siftupLoop, dif_pos h0, dif_neg h2, ih hcpset, hget]
    exact set_set_coe heap pos (2 * pos + 1) newitem h hcp (by omega)
  | case3 heap startpos pos newitem h0 =>
    rw [siftupLoop, dif_neg h0]
    exact siftdown_perm _ startpos pos (by rw [List.length_set]; exact h)

theorem siftup_perm (heap : List HuffmanNode) (pos : Nat)
    (h : pos < heap.length) :
    (↑(siftup heap pos) : Multiset HuffmanNode) = ↑heap := by
  rw [siftup, siftupLoop_perm heap pos pos _ h,
    List.getD_eq_getElem heap .nil h, list_set_getElem_self heap pos h]

theorem heappush_perm (heap : List HuffmanNode) (item : HuffmanNode) :
    (↑(heappush heap item) : Multiset HuffmanNode) = item ::ₘ ↑heap := by
  rw [heappush, siftdown_perm _ 0 heap.length (by simp)]
  rw [← Multiset.coe_add, ← Multiset.singleton_add, Multiset.coe_singleton]
  abel

theorem heappop_perm (heap : List HuffmanNode) (a : HuffmanNode)
    (rest : List HuffmanNode) (h : heappop heap = some (a, rest)) :
    a ::ₘ (↑rest : Multiset HuffmanNode) = ↑heap := by
  rw [heappop] at h
  by_cases he : heap.isEmpty
  · rw [if_pos he] at h
    exact absurd h (by simp)
  · rw [if_neg he] at h
    have hne : heap ≠ [] := by
      intro hh
      exact he (by simp [hh])
    have hsplit : heap.dropLast ++ [heap.getLast hne] = heap :=
      List.dropLast_append_getLast hne
    have hlastD : heap.getLastD .nil = heap.getLast hne := by
      rw [List.getLastD_eq_getLast?, List.getLast?_eq_getLast heap hne]
      rfl
    by_cases hr : heap.dropLast.isEmpty
    · rw [if_pos hr] at h
      cases h
      have hdrop : heap.dropLast = [] := by
        rwa [List.isEmpty_iff] at hr
      cases heap with
      | nil => exact absurd rfl hne
      | cons x xs =>
        cases xs with
        | nil => rfl
        | cons y ys => simp at hdrop
    · rw [if_neg hr] at h
      cases h
      have hdne : heap.dropLast ≠ [] := by
        rwa [List.isEmpty_iff] at hr
      have hdpos : 0 < heap.dropLast.length := List.length_pos.mpr hdne
      have hd0 : heap.dropLast.headD .nil = heap.dropLast[0] :=
        list_headD_eq_getElem _ _ hdpos
      rw [siftup_perm _ 0 (by rw [List.length_set]; exact hdpos)]
      have e1 := coe_set_add heap.dropLast 0 (heap.getLastD .nil) hdpos
      rw [hd0, ← Multiset.singleton_add, add_comm, e1, hlastD]
      rw [← Multiset.coe_singleton, Multiset.coe_add, hsplit]

theorem heapifyLoop_perm (heap : List HuffmanNode) (n : Nat)
    (h : n ≤ heap.length) :
    (↑(heapifyLoop heap n) : Multiset HuffmanNode) = ↑heap := by
  induction n generalizing heap with
  | zero => rfl
  | succ i ih =>
    rw [heapifyLoop, ih _ (by rw [siftup_length]; omega),
      siftup_perm heap i (by omega)]

theorem heapify_perm (heap : List HuffmanNode) :
    (↑(heapify heap) : Multiset HuffmanNode) = ↑heap := by
  rw [heapify, heapifyLoop_perm heap _ (Nat.div_le_self _ _)]

theorem heapChars_cons (a : HuffmanNode) (m : Multiset HuffmanNode) :
    heapChars (a ::ₘ m) = a.chars + heapChars m := by
  rw [heapChars, heapChars, Multiset.map_cons, Multiset.sum_cons]

theorem wfb_merged (f : Nat) (l r : HuffmanNode) (hl : wfb l = true)
    (hr : wfb r = true) : wfb (.mk Option.none f l r) = true := by
  cases l with
  | nil => exact absurd hl (by rw [wfb]; exact Bool.false_ne_true)
  | mk c₁ f₁ l₁ r₁ =>
    cases r with
    | nil => exact absurd hr (by rw [wfb]; exact Bool.false_ne_true)
    | mk c₂ f₂ l₂ r₂ =>
      rw [wfb]
      rw [hl, hr]
      rfl

theorem heappop_eq_none (heap : List HuffmanNode)
    (h : heappop heap = Option.none) : heap = [] := by
  rw [heappop] at h
  by_cases he : heap.isEmpty
  · rwa [List.isEmpty_iff] at he
  · rw [if_neg he] at h
    by_cases hr : heap.dropLast.isEmpty
    · rw [if_pos hr] at h
      exact absurd h (by simp)
    · rw [if_neg hr] at h
      exact absurd h (by simp)

theorem heappop_mem (heap : List HuffmanNode) (a : HuffmanNode)
    (rest : List HuffmanNode) (h : heappop heap = some (a, rest)) :
    a ∈ heap ∧ ∀ n ∈ rest, n ∈ heap := by
  have hp := heappop_perm heap a rest h
  constructor
  · rw [← Multiset.mem_coe, ← hp]
    exact Multiset.mem_cons_self a _
  · intro n hn
    rw [← Multiset.mem_coe, ← hp]
    exact Multiset.mem_cons_of_mem (Multiset.mem_coe.mpr hn)

theorem heappush_mem (heap : List HuffmanNode) (item : HuffmanNode)
    (n : HuffmanNode) (h : n ∈ heappush heap item) :
    n = item ∨ n ∈ heap := by
  rw [← Multiset.mem_coe, heappush_perm, Multiset.mem_cons,
    Multiset.mem_coe] at h
  exact h

theorem heappush_nil (item : HuffmanNode) : heappush [] item = [item] := by
  rw [heappush, siftdown, siftdownLoop]
  simp

theorem buildLoopGo_chars (fuel : Nat) :
    ∀ (heap : List HuffmanNode) (steps : List MergeStep),
      heapChars ↑(buildLoopGo fuel heap steps).1 = heapChars ↑heap := by
  induction fuel with
  | zero => intro heap steps; rfl
  | succ fuel ih =>
    intro heap steps
    rw [buildLoopGo]
    by_cases hg : 1 < heap.length
    · rw [if_pos hg]
      cases hp : heappop heap with
      | none => rfl
      | some v =>
        obtain ⟨left, heap1⟩ := v
        dsimp only
        cases hp2 : heappop heap1 with
        | none => rfl
        | some v2 =>
          obtain ⟨right, heap2⟩ := v2
          dsimp only
          rw [ih]
          have e0 : (↑(heappush heap2 (HuffmanNode.mk Option.none
              (left.freq + right.freq) left right)) : Multiset HuffmanNode)
              = HuffmanNode.mk Option.none (left.freq + right.freq) left right
                ::ₘ ↑heap2 := heappush_perm _ _
          rw [e0, heapChars_cons]
          rw [← heappop_perm heap left heap1 hp,
            ← heappop_perm heap1 right heap2 hp2, heapChars_cons,
            heapChars_cons]
          rw [HuffmanNode.chars]
          abel
    · rw [if_neg hg]

theorem buildLoopGo_wf (fuel : Nat) :
    ∀ (heap : List HuffmanNode) (steps : List MergeStep),
      (∀ n ∈ heap, wfb n = true) →
      ∀ n ∈ (buildLoopGo fuel heap steps).1, wfb n = true := by
  induction fuel with
  | zero => intro heap steps hwf; exact hwf
  | succ fuel ih =>
    intro heap steps hwf
    rw [buildLoopGo]
    by_cases hg : 1 < heap.length
    · rw [if_pos hg]
      cases hp : heappop heap with
      | none => exact hwf
      | some v =>
        obtain ⟨left, heap1⟩ := v
        dsimp only
        cases hp2 : heappop heap1 with
        | none => exact hwf
        | some v2 =>
          obtain ⟨right, heap2⟩ := v2
          dsimp only
          have hmem := heappop_mem heap left heap1 hp
          have hmem2 := heappop_mem heap1 right heap2 hp2
          apply ih
          intro n hn
          rcases heappush_mem _ _ _ hn with h | h
          · subst h
            exact wfb_merged _ _ _ (hwf left hmem.1)
              (hwf right (hmem.2 right hmem2.1))
          · exact hwf n (hmem.2 n (hmem2.2 n h))
    · rw [if_neg hg]
      exact hwf

theorem buildLoopGo_length_one (fuel : Nat) :
    ∀ (heap : List HuffmanNode) (steps : List MergeStep),
      heap ≠ [] → heap.length ≤ fuel + 1 →
      (buildLoopGo fuel heap steps).1.length = 1 := by
  induction fuel with
  | zero =>
    intro heap steps hne hlen
    have hz : heap.length ≠ 0 := fun hh => hne (List.length_eq_zero.mp hh)
    rw [buildLoopGo]
    dsimp only
    omega
  | succ fuel ih =>
    intro heap steps hne hlen
    rw [buildLoopGo]
    by_cases hg : 1 < heap.length
    · rw [if_pos hg]
      cases hp : heappop heap with
      | none =>
        exfalso
        have hnil := heappop_eq_none heap hp
        subst hnil
        simp at hg
      | some v =>
        obtain ⟨left, heap1⟩ := v
        dsimp only
        cases hp2 : heappop heap1 with
        | none =>
          exfalso
          have h1 := heappop_length heap left heap1 hp
          have hnil := heappop_eq_none heap1 hp2
          subst hnil
          simp at h1
          omega
        | some v2 =>
          obtain ⟨right, heap2⟩ := v2
          dsimp only
          have h1 := heappop_length heap left heap1 hp
          have h2 := heappop_length heap1 right heap2 hp2
          have hp3 := heappush_length heap2
            (HuffmanNode.mk Option.none (left.freq + right.freq) left right)
          apply ih
          · intro hh
            rw [hh] at hp3
            simp at hp3
          · omega
    · rw [if_neg hg]
      have hz : heap.length ≠ 0 := fun hh => hne (List.length_eq_zero.mp hh)
      dsimp only
      omega

theorem buildLoopGo_internal (fuel : Nat) :
    ∀ (heap : List HuffmanNode) (steps : List MergeStep),
      1 < heap.length → heap.length ≤ fuel + 1 →
      ∃ f l r, (buildLoopGo fuel heap steps).1 =
        [HuffmanNode.mk Option.none f l r] := by
  induction fuel with
  | zero =>
    intro heap steps hg hlen
    omega
  | succ fuel ih =>
    intro heap steps hg hlen
    rw [buildLoopGo, if_pos hg]
    cases hp : heappop heap with
    | none =>
      exfalso
      have hnil := heappop_eq_none heap hp
      subst hnil
      simp at hg
    | some v =>
      obtain ⟨left, heap1⟩ := v
      dsimp only
      cases hp2 : heappop heap1 with
      | none =>
        exfalso
        have h1 := heappop_length heap left heap1 hp
        have hnil := heappop_eq_none heap1 hp2
        subst hnil
        simp at h1
        omega
      | some v2 =>
        obtain ⟨right, heap2⟩ := v2
        dsimp only
        have h1 := heappop_length heap left heap1 hp
        have h2 := heappop_length heap1 right heap2 hp2
        have hp3 := heappush_length heap2
          (HuffmanNode.mk Option.none (left.freq + right.freq) left right)
        by_cases hgt : 1 < (heappush heap2 (HuffmanNode.mk Option.none
            (left.freq + right.freq) left right)).length
        · exact ih _ _ hgt (by omega)
        · have hh2 : heap2 = [] := by
            rw [hp3] at hgt
            have hz : heap2.length = 0 := by omega
            exact List.length_eq_zero.mp hz
          subst hh2
          rw [heappush_nil]
          cases fuel with
          | zero =>
            exact ⟨left.freq + right.freq, left, right, rfl⟩
          | succ fuel' =>
            rw [buildLoopGo]
            rw [if_neg (by simp)]
            exact ⟨left.freq + right.freq, left, right, rfl⟩

/-! ### `Counter` facts and the shape of the built root -/

theorem counterKeys_aux (l : List Char) :
    ∀ (acc : List Char) (c : Char),
      c ∈ l.foldl (fun ks c => if c ∈ ks then ks else ks ++ [c]) acc ↔
        c ∈ acc ∨ c ∈ l := by
  induction l with
  | nil =>
    intro acc c
    simp
  | cons a t ih =>
    intro acc c
    rw [List.foldl_cons]
    by_cases ha : a ∈ acc
    · rw [if_pos ha, ih]
      simp only [List.mem_cons]
      constructor
      · rintro (h | h)
        · exact Or.inl h
        · exact Or.inr (Or.inr h)
      · rintro (h | h | h)
        · exact Or.inl h
        · exact Or.inl (h ▸ ha)
        · exact Or.inr h
    · rw [if_neg ha, ih]
      simp only [List.mem_append, List.mem_cons, List.mem_singleton]
      tauto

theorem counterKeys_mem (text : List Char) (c : Char) :
    c ∈ counterKeys text ↔ c ∈ text := by
  rw [counterKeys, counterKeys_aux]
  simp

theorem counterKeys_nodup_aux (l : List Char) :
    ∀ acc : List Char, acc.Nodup →
      (l.foldl (fun ks c => if c ∈ ks then ks else ks ++ [c]) acc).Nodup := by
  induction l with
  | nil => intro acc h; exact h
  | cons a t ih =>
    intro acc h
    rw [List.foldl_cons]
    by_cases ha : a ∈ acc
    · rw [if_pos ha]
      exact ih acc h
    · rw [if_neg ha]
      exact ih (acc ++ [a]) (by simp [List.nodup_append, h, ha])

theorem counterKeys_nodup (text : List Char) : (counterKeys text).Nodup :=
  counterKeys_nodup_aux text [] List.nodup_nil

theorem counterKeys_ne_nil (text : List Char) (h : text ≠ []) :
    counterKeys text ≠ [] := by
  cases text with
  | nil => exact absurd rfl h
  | cons c t =>
    exact List.ne_nil_of_mem ((counterKeys_mem _ c).mpr (List.mem_cons_self c t))

theorem list_eq_singleton_headD {α : Type} (l : List α) (d : α)
    (h : l.length = 1) : l = [l.headD d] := by
  cases l with
  | nil => simp at h
  | cons x xs =>
    cases xs with
    | nil => rfl
    | cons y ys => simp at h

theorem initialHeap_wf (text : List Char) :
    ∀ n ∈ (counterItems text).map
      (fun p => HuffmanNode.mk (some p.1) p.2 .nil .nil), wfb n = true := by
  intro n hn
  rw [List.mem_map] at hn
  obtain ⟨p, _, rfl⟩ := hn
  rfl

theorem initialHeap_chars (text : List Char) :
    heapChars ↑((counterItems text).map
        fun p => HuffmanNode.mk (some p.1) p.2 .nil .nil)
      = ↑(counterKeys text) := by
  rw [counterItems, List.map_map]
  generalize counterKeys text = l
  induction l with
  | nil => rfl
  | cons a t ih =>
    rw [List.map_cons, ← Multiset.cons_coe, ← Multiset.cons_coe,
      heapChars_cons]
    rw [ih]
    rw [Function.comp_apply, HuffmanNode.chars]
    simp [HuffmanNode.chars, ← Multiset.singleton_add]

theorem buildTree_root_def (text : List Char) :
    (buildTree text).root = (buildLoop (heapify ((counterItems text).map
      fun p => HuffmanNode.mk (some p.1) p.2 .nil .nil)) []).1.headD .nil :=
  rfl

theorem buildTree_root_spec (text : List Char) (h : text ≠ []) :
    wfb (buildTree text).root = true ∧
    (buildTree text).root.chars = ↑(counterKeys text) ∧
    (2 ≤ (counterKeys text).length →
      ∃ f l r, (buildTree text).root = HuffmanNode.mk Option.none f l r) := by
  have hkne : counterKeys text ≠ [] := counterKeys_ne_nil text h
  have hklen : (counterKeys text).length ≠ 0 :=
    fun hh => hkne (List.length_eq_zero.mp hh)
  have hlen0 : ((counterItems text).map
      (fun p => HuffmanNode.mk (some p.1) p.2 .nil .nil)).length
      = (counterKeys text).length := by
    rw [List.length_map, counterItems, List.length_map]
  have hplen : (heapify ((counterItems text).map
      fun p => HuffmanNode.mk (some p.1) p.2 .nil .nil)).length
      = (counterKeys text).length := by
    rw [heapify_length, hlen0]
  have hpne : heapify ((counterItems text).map
      fun p => HuffmanNode.mk (some p.1) p.2 .nil .nil) ≠ [] := by
    intro hh
    rw [hh] at hplen
    exact hklen hplen.symm
  have hpwf : ∀ n ∈ heapify ((counterItems text).map
      fun p => HuffmanNode.mk (some p.1) p.2 .nil .nil), wfb n = true := by
    intro n hn
    apply initialHeap_wf text n
    rw [← Multiset.mem_coe, ← heapify_perm, Multiset.mem_coe]
    exact hn
  have hlen1 : (buildLoop (heapify ((counterItems text).map
      fun p => HuffmanNode.mk (some p.1) p.2 .nil .nil)) []).1.length = 1 := by
    rw [buildLoop]
    exact buildLoopGo_length_one (heapify ((counterItems text).map
      fun p => HuffmanNode.mk (some p.1) p.2 .nil .nil)).length _ [] hpne
      (by omega)
  have hsingle := list_eq_singleton_headD _ HuffmanNode.nil hlen1
  rw [buildTree_root_def]
  set r0 := (buildLoop (heapify ((counterItems text).map
      fun p => HuffmanNode.mk (some p.1) p.2 .nil .nil)) []).1.headD .nil
    with hr0
  refine ⟨?_, ?_, ?_⟩
  · have hin : r0 ∈ (buildLoop (heapify ((counterItems text).map
        fun p => HuffmanNode.mk (some p.1) p.2 .nil .nil)) []).1 := by
      rw [hsingle]
      exact List.mem_cons_self _ _
    rw [buildLoop] at hin
    exact buildLoopGo_wf _ _ _ hpwf _ hin
  · have hchars : heapChars ↑(buildLoop (heapify ((counterItems text).map
        fun p => HuffmanNode.mk (some p.1) p.2 .nil .nil)) []).1
        = ↑(counterKeys text) := by
      rw [buildLoop, buildLoopGo_chars, heapify_perm, initialHeap_chars]
    rw [hsingle] at hchars
    rw [← Multiset.cons_coe, heapChars_cons] at hchars
    rw [← hchars, heapChars]
    simp
  · intro h2
    obtain ⟨f, l, r, hfin⟩ := buildLoopGo_internal
      (heapify ((counterItems text).map
        fun p => HuffmanNode.mk (some p.1) p.2 .nil .nil)).length
      (heapify ((counterItems text).map
        fun p => HuffmanNode.mk (some p.1) p.2 .nil .nil)) []
      (by omega) (by omega)
    have hb : (buildLoop (heapify ((counterItems text).map
        fun p => HuffmanNode.mk (some p.1) p.2 .nil .nil)) []).1
        = [HuffmanNode.mk Option.none f l r] := by
      rw [buildLoop]
      exact hfin
    rw [hsingle] at hb
    injection hb with h1 _
    exact ⟨f, l, r, h1⟩

theorem chars_mk_none (f : Nat) (l r : HuffmanNode) :
    (HuffmanNode.mk Option.none f l r).chars = l.chars + r.chars := by
  rw [HuffmanNode.chars]
  rw [zero_add]

theorem chars_mk_some (ch : Char) (f : Nat) (l r : HuffmanNode) :
    (HuffmanNode.mk (some ch) f l r).chars = {ch} + l.chars + r.chars := by
  rw [HuffmanNode.chars]

theorem codesList_keys (node : HuffmanNode) : ∀ code : List Char,
    (↑((codesList node code).map Prod.fst) : Multiset Char) = node.chars := by
  induction node with
  | nil => intro code; rfl
  | mk c f l r ihl ihr =>
    intro code
    rw [codesList, List.map_append, List.map_append, ← Multiset.coe_add,
      ← Multiset.coe_add, ihl, ihr]
    cases c with
    | none =>
      rw [chars_mk_none, ownEntry]
      rw [List.map_nil, Multiset.coe_nil, zero_add]
    | some ch =>
      rw [chars_mk_some, ownEntry]
      rw [List.map_cons, List.map_nil, Multiset.coe_singleton]

theorem codesList_code_extends (node : HuffmanNode) : ∀ (code : List Char)
    (p : Char × List Char), p ∈ codesList node code → code <+: p.2 := by
  induction node with
  | nil =>
    intro code p hp
    simp only [codesList] at hp
    exact absurd hp (List.not_mem_nil p)
  | mk c f l r ihl ihr =>
    intro code p hp
    rw [codesList, List.mem_append, List.mem_append] at hp
    rcases hp with (hp | hp) | hp
    · cases c with
      | none => simp [ownEntry] at hp
      | some ch =>
        rw [ownEntry] at hp
        rw [List.mem_singleton] at hp
        rw [hp]
    · exact (List.prefix_append code ['0']).trans (ihl _ p hp)
    · exact (List.prefix_append code ['1']).trans (ihr _ p hp)

theorem diverge_not_pfx {a u v : List Char} {x y : Char} (hxy : x ≠ y)
    (hu : a ++ [x] <+: u) (hv : a ++ [y] <+: v) : ¬ u <+: v := by
  intro huv
  have h1 : a ++ [x] <+: v := hu.trans huv
  have heq : a ++ [x] = a ++ [y] :=
    (List.prefix_of_prefix_length_le h1 hv (by simp)).eq_of_length (by simp)
  have h2 := List.append_cancel_left heq
  injection h2 with h3 _
  exact hxy h3

theorem codesList_pairwise (node : HuffmanNode) (hw : wfb node = true) :
    ∀ code : List Char,
      List.Pairwise (fun p q : Char × List Char =>
        ¬ p.2 <+: q.2 ∧ ¬ q.2 <+: p.2) (codesList node code) := by
  induction node with
  | nil => exact absurd hw (by rw [wfb]; exact Bool.false_ne_true)
  | mk c f l r ihl ihr =>
    intro code
    cases c with
    | some ch =>
      cases l with
      | mk c1 f1 l1 r1 => simp [wfb] at hw
      | nil =>
        cases r with
        | mk c2 f2 l2 r2 => simp [wfb] at hw
        | nil =>
          simp [codesList, ownEntry]
    | none =>
      cases l with
      | nil => simp [wfb] at hw
      | mk c1 f1 l1 r1 =>
        cases r with
        | nil => simp [wfb] at hw
        | mk c2 f2 l2 r2 =>
          have hw2 : wfb (.mk c1 f1 l1 r1) = true ∧
              wfb (.mk c2 f2 l2 r2) = true := by
            rw [wfb] at hw
            exact And.imp id id (by simpa using hw)
          rw [codesList, ownEntry]
          rw [List.nil_append, List.pairwise_append]
          refine ⟨ihl hw2.1 _, ihr hw2.2 _, ?_⟩
          intro p hp q hq
          have hp1 := codesList_code_extends _ _ p hp
          have hq1 := codesList_code_extends _ _ q hq
          exact ⟨diverge_not_pfx (by decide) hp1 hq1,
            diverge_not_pfx (by decide) hq1 hp1⟩

theorem dfsCodes_eq (node : HuffmanNode) : ∀ (code : List Char)
    (acc : List (Char × List Char)),
    node.chars.Nodup →
    (∀ p ∈ acc, p.1 ∉ node.chars) →
    dfsCodes node code acc = acc ++ codesList node code := by
  induction node with
  | nil =>
    intro code acc _ _
    rw [dfsCodes, codesList, List.append_nil]
  | mk c f l r ihl ihr =>
    intro code acc hnd hdisj
    rw [dfsCodes, codesList]
    cases c with
    | none =>
      rw [recordCode, ownEntry]
      rw [chars_mk_none] at hnd hdisj
      have hparts := Multiset.nodup_add.mp hnd
      have hl := ihl (code ++ ['0']) acc hparts.1
        (fun p hp hmem => hdisj p hp (Multiset.mem_add.mpr (Or.inl hmem)))
      rw [hl]
      have hrd : ∀ p ∈ acc ++ codesList l (code ++ ['0']),
          p.1 ∉ r.chars := by
        intro p hp hmem
        rw [List.mem_append] at hp
        rcases hp with hp | hp
        · exact hdisj p hp (Multiset.mem_add.mpr (Or.inr hmem))
        · have hkey : p.1 ∈ l.chars := by
            rw [← codesList_keys l (code ++ ['0'])]
            exact Multiset.mem_coe.mpr (List.mem_map.mpr ⟨p, hp, rfl⟩)
          exact (Multiset.disjoint_left.mp hparts.2.2 hkey) hmem
      have hr := ihr (code ++ ['1']) _ hparts.2.1 hrd
      rw [hr]
      simp [List.append_assoc]
    | some ch =>
      rw [recordCode, ownEntry]
      rw [chars_mk_some] at hnd hdisj
      have hnd' : (({ch} : Multiset Char) + (l.chars + r.chars)).Nodup := by
        rwa [add_assoc] at hnd
      have hparts := Multiset.nodup_add.mp hnd'
      have hch : ch ∉ l.chars + r.chars :=
        Multiset.disjoint_left.mp hparts.2.2 (Multiset.mem_singleton_self ch)
      have hlr := Multiset.nodup_add.mp hparts.2.1
      have hchmem : ch ∈ ({ch} : Multiset Char) + l.chars + r.chars :=
        Multiset.mem_add.mpr (Or.inl (Multiset.mem_add.mpr
          (Or.inl (Multiset.mem_singleton_self ch))))
      have hins : pyInsert acc ch code = acc ++ [(ch, code)] := by
        rw [pyInsert, if_neg]
        intro hany
        rw [List.any_eq_true] at hany
        obtain ⟨x, hx, hxe⟩ := hany
        have hx1 : x.1 = ch := by simpa using hxe
        exact hdisj x hx (hx1 ▸ hchmem)
      rw [hins]
      have hld : ∀ p ∈ acc ++ [(ch, code)], p.1 ∉ l.chars := by
        intro p hp hmem
        rw [List.mem_append, List.mem_singleton] at hp
        rcases hp with hp | hp
        · exact hdisj p hp (Multiset.mem_add.mpr
            (Or.inl (Multiset.mem_add.mpr (Or.inr hmem))))
        · subst hp
          exact hch (Multiset.mem_add.mpr (Or.inl hmem))
      have hl := ihl (code ++ ['0']) (acc ++ [(ch, code)]) hlr.1 hld
      rw [hl]
      have hrd : ∀ p ∈ (acc ++ [(ch, code)]) ++ codesList l (code ++ ['0']),
          p.1 ∉ r.chars := by
        intro p hp hmem
        rw [List.mem_append] at hp
        rcases hp with hp | hp
        · rw [List.mem_append, List.mem_singleton] at hp
          rcases hp with hp | hp
          · exact hdisj p hp (Multiset.mem_add.mpr (Or.inr hmem))
          · subst hp
            exact hch (Multiset.mem_add.mpr (Or.inr hmem))
        · have hkey : p.1 ∈ l.chars := by
            rw [← codesList_keys l (code ++ ['0'])]
            exact Multiset.mem_coe.mpr (List.mem_map.mpr ⟨p, hp, rfl⟩)
          exact (Multiset.disjoint_left.mp hlr.2.2 hkey) hmem
      have hr := ihr (code ++ ['1']) _ hlr.2.1 hrd
      rw [hr]
      simp [List.append_assoc]

theorem generateCodes_eq (root : HuffmanNode) (hnd : root.chars.Nodup) :
    generateCodes root = codesList root [] := by
  cases root with
  | nil => rfl
  | mk c f l r =>
    rw [generateCodes]
    have h := dfsCodes_eq (.mk c f l r) [] [] hnd
      (fun p hp => absurd hp (List.not_mem_nil p))
    rwa [List.nil_append] at h

theorem buildTree_codes_def (text : List Char) :
    (buildTree text).codes = generateCodes (buildTree text).root := rfl

theorem buildTree_frequency_def (text : List Char) :
    (buildTree text).frequency = counterItems text := rfl

theorem buildTree_encoded_def (text : List Char) :
    (buildTree text).encoded = encodeText (buildTree text).codes text := rfl

theorem buildTree_codes_eq_codesList (text : List Char) (h : text ≠ []) :
    (buildTree text).codes = codesList (buildTree text).root [] := by
  obtain ⟨hw, hchars, _⟩ := buildTree_root_spec text h
  rw [buildTree_codes_def]
  apply generateCodes_eq
  rw [hchars]
  exact Multiset.coe_nodup.mpr (counterKeys_nodup text)

/-! ### C2 -/

/-- C2: for every input with at least two distinct symbols, the code table
produced by `_generate_codes` is prefix-free: no symbol's bit string is a
prefix of any other symbol's bit string. -/

theorem codes_prefix_free (text : List Char)
    (h2 : 2 ≤ (counterKeys text).length) :
    ∀ p ∈ (buildTree text).codes, ∀ q ∈ (buildTree text).codes,
      p.1 ≠ q.1 → ¬ p.2 <+: q.2 := by
  have htne : text ≠ [] := by
    intro hh
    rw [hh] at h2
    simp [counterKeys] at h2
  obtain ⟨hw, hchars, _⟩ := buildTree_root_spec text htne
  rw [buildTree_codes_eq_codesList text htne]
  intro p hp q hq hne
  have hpw := codesList_pairwise (buildTree text).root hw []
  have hsym : Symmetric (fun p q : Char × List Char =>
      ¬ p.2 <+: q.2 ∧ ¬ q.2 <+: p.2) := fun a b hab => ⟨hab.2, hab.1⟩
  have hpq : p ≠ q := fun he => hne (he ▸ rfl)
  exact (List.Pairwise.forall hsym hpw hp hq hpq).1

/-- C2, witness: the two codes of `"aabb"`. -/

theorem codes_prefix_free_witness :
    2 ≤ (counterKeys ['a', 'a', 'b', 'b']).length ∧
    ('b', ['0']) ∈ (buildTree ['a', 'a', 'b', 'b']).codes ∧
    ('a', ['1']) ∈ (buildTree ['a', 'a', 'b', 'b']).codes ∧
    ('b' ≠ 'a') ∧ ¬ (['0'] <+: ['1']) :=
  ⟨by decide, by rw [buildTree_aabb]; decide, by rw [buildTree_aabb]; decide,
    by decide,
    codes_prefix_free ['a', 'a', 'b', 'b'] (by decide) ('b', ['0'])
      (by rw [buildTree_aabb]; decide) ('a', ['1'])
      (by rw [buildTree_aabb]; decide) (by decide)⟩

/-! ### C10 -/

theorem codesList_entries_at_leaves (node : HuffmanNode)
    (hw : wfb node = true) :
    ∀ (code : List Char) (p : Char × List Char), p ∈ codesList node code →
      ∃ n ∈ node.nodes, n.char = some p.1 ∧ n.left = .nil ∧ n.right = .nil := by
  induction node with
  | nil => exact absurd hw (by rw [wfb]; exact Bool.false_ne_true)
  | mk c f l r ihl ihr =>
    intro code p hp
    cases c with
    | some ch =>
      cases l with
      | mk c1 f1 l1 r1 => simp [wfb] at hw
      | nil =>
        cases r with
        | mk c2 f2 l2 r2 => simp [wfb] at hw
        | nil =>
          have hp' : p = (ch, code) := by
            simpa [codesList, ownEntry] using hp
          subst hp'
          exact ⟨.mk (some ch) f .nil .nil, List.mem_cons_self _ _, rfl, rfl,
            rfl⟩
    | none =>
      cases l with
      | nil => simp [wfb] at hw
      | mk c1 f1 l1 r1 =>
        cases r with
        | nil => simp [wfb] at hw
        | mk c2 f2 l2 r2 =>
          have hw2 : wfb (.mk c1 f1 l1 r1) = true ∧
              wfb (.mk c2 f2 l2 r2) = true := by
            rw [wfb] at hw
            exact And.imp id id (by simpa using hw)
          rw [codesList, ownEntry, List.nil_append, List.mem_append] at hp
          rcases hp with hp | hp
          · obtain ⟨n, hn, hc⟩ := ihl hw2.1 _ p hp
            exact ⟨n, by
              rw [HuffmanNode.nodes]
              exact List.mem_cons_of_mem _ (List.mem_append.mpr (Or.inl hn)),
              hc⟩
          · obtain ⟨n, hn, hc⟩ := ihr hw2.2 _ p hp
            exact ⟨n, by
              rw [HuffmanNode.nodes]
              exact List.mem_cons_of_mem _ (List.mem_append.mpr (Or.inr hn)),
              hc⟩

/-- C10: for every input with at least two distinct symbols, every entry of
the produced code table is a non-empty bit string, and every entry belongs
to a leaf: some reachable node with that character and no children. -/

theorem codes_nonempty_and_at_leaves (text : List Char)
    (h2 : 2 ≤ (counterKeys text).length) :
    ∀ p ∈ (buildTree text).codes, p.2 ≠ [] ∧
      ∃ n ∈ (buildTree text).root.nodes, n.char = some p.1 ∧
        n.left = .nil ∧ n.right = .nil := by
  have htne : text ≠ [] := by
    intro hh
    rw [hh] at h2
    simp [counterKeys] at h2
  obtain ⟨hw, hchars, hint⟩ := buildTree_root_spec text htne
  rw [buildTree_codes_eq_codesList text htne]
  intro p hp
  refine ⟨?_, codesList_entries_at_leaves _ hw _ p hp⟩
  obtain ⟨f, l, r, hroot⟩ := hint h2
  rw [hroot] at hp
  rw [codesList, ownEntry, List.nil_append, List.mem_append] at hp
  intro hnil
  rcases hp with hp | hp
  · have hpfx := codesList_code_extends _ _ p hp
    rw [hnil] at hpfx
    have hle := hpfx.length_le
    simp at hle
  · have hpfx := codesList_code_extends _ _ p hp
    rw [hnil] at hpfx
    have hle := hpfx.length_le
    simp at hle

/-- C10, witness: the entry of `'b'` in the `"aabb"` table. -/

theorem codes_nonempty_and_at_leaves_witness :
    2 ≤ (counterKeys ['a', 'a', 'b', 'b']).length ∧
    ('b', ['0']) ∈ (buildTree ['a', 'a', 'b', 'b']).codes ∧
    ((['0'] : List Char) ≠ [] ∧
      ∃ n ∈ (buildTree ['a', 'a', 'b', 'b']).root.nodes,
        n.char = some 'b' ∧ n.left = .nil ∧ n.right = .nil) :=
  ⟨by decide, by rw [buildTree_aabb]; decide,
    codes_nonempty_and_at_leaves ['a', 'a', 'b', 'b'] (by decide)
      ('b', ['0']) (by rw [buildTree_aabb]; decide)⟩

/-! ### C7 -/

theorem buildTree_find_isSome (text : List Char) (c : Char) (hc : c ∈ text) :
    (pyFind (buildTree text).codes c).isSome := by
  have htne : text ≠ [] := by
    intro hh
    rw [hh] at hc
    exact absurd hc (List.not_mem_nil c)
  obtain ⟨hw, hchars, _⟩ := buildTree_root_spec text htne
  rw [buildTree_codes_eq_codesList text htne]
  have hmem : c ∈ (buildTree text).root.chars := by
    rw [hchars]
    exact Multiset.mem_coe.mpr ((counterKeys_mem text c).mpr hc)
  rw [← codesList_keys _ ([] : List Char), Multiset.mem_coe,
    List.mem_map] at hmem
  obtain ⟨p, hp, hpc⟩ := hmem
  rw [pyFind]
  have hfind : ((codesList (buildTree text).root []).find?
      fun q => q.1 == c).isSome := by
    rw [List.find?_isSome]
    exact ⟨p, hp, by simp [hpc]⟩
  obtain ⟨v, hv⟩ := Option.isSome_iff_exists.mp hfind
  rw [hv]
  rfl

theorem mapCodes_eq_map (codes : List (Char × List Char)) :
    ∀ ts : List Char, (∀ c ∈ ts, (pyFind codes c).isSome) →
      mapCodes codes ts
        = some (ts.map fun c => (pyFind codes c).getD []) := by
  intro ts
  induction ts with
  | nil => intro _; rfl
  | cons c cs ih =>
    intro h
    have hc := h c (List.mem_cons_self _ _)
    obtain ⟨v, hv⟩ := Option.isSome_iff_exists.mp hc
    rw [mapCodes, hv, ih (fun c' hc' => h c' (List.mem_cons_of_mem _ hc'))]
    simp [hv]

theorem encodeText_eq (codes : List (Char × List Char)) (ts : List Char)
    (h : ∀ c ∈ ts, (pyFind codes c).isSome) :
    encodeText codes ts
      = some ((ts.map fun c => (pyFind codes c).getD []).flatten) := by
  rw [encodeText, mapCodes_eq_map codes ts h]
  rfl

theorem mapCodes_none (codes : List (Char × List Char)) :
    ∀ (ts : List Char) (c : Char), c ∈ ts →
      pyFind codes c = Option.none → mapCodes codes ts = Option.none := by
  intro ts
  induction ts with
  | nil =>
    intro c hc _
    exact absurd hc (List.not_mem_nil c)
  | cons d ds ih =>
    intro c hc hnone
    rw [List.mem_cons] at hc
    rcases hc with hc | hc
    · subst hc
      rw [mapCodes, hnone]
    · rw [mapCodes, ih c hc hnone]
      cases hY : pyFind codes d <;> rfl

/-- C7: encoding raises a `KeyError` when a character of the text has no
entry in the code table; but the tree, codes and frequency table are built
from the same text inside `HuffmanTree.__init__`, so every character of the
text has a code-table entry and the `self.codes[c]` lookup of
`_encode_text` never fails, for any input string. -/

theorem encode_lookup_never_fails (text : List Char) :
    (∀ codes : List (Char × List Char), ∀ c ∈ text,
      pyFind codes c = Option.none → encodeText codes text = Option.none) ∧
    (∀ c ∈ text, (pyFind (buildTree text).codes c).isSome) ∧
    (buildTree text).encoded.isSome := by
  refine ⟨?_, fun c hc => buildTree_find_isSome text c hc, ?_⟩
  · intro codes c hc hnone
    rw [encodeText, mapCodes_none codes text c hc hnone]
    rfl
  · rw [buildTree_encoded_def,
      encodeText_eq _ _ (fun c hc => buildTree_find_isSome text c hc)]
    rfl

/-- C7, witness: the `"ab"` tree, the character `'a'`, and a failing lookup
against an empty table. -/

theorem encode_lookup_never_fails_witness :
    'a' ∈ ['a', 'b'] ∧
    (pyFind (buildTree ['a', 'b']).codes 'a').isSome ∧
    (buildTree ['a', 'b']).encoded.isSome ∧
    encodeText [] ['a', 'b'] = Option.none :=
  ⟨by decide,
    (encode_lookup_never_fails ['a', 'b']).2.1 'a' (by decide),
    (encode_lookup_never_fails ['a', 'b']).2.2,
    (encode_lookup_never_fails ['a', 'b']).1 [] 'a' (by decide) rfl⟩

/-! ### C3 -/

theorem sum_count_mul (text : List Char) (f : Char → Nat) :
    ((counterKeys text).map fun c => text.count c * f c).sum
      = (text.map f).sum := by
  rw [Finset.sum_list_map_count text f]
  have h1 : ((counterKeys text).map fun c => text.count c * f c).sum
      = ∑ a ∈ (counterKeys text).toFinset, text.count a * f a := by
    rw [List.sum_toFinset _ (counterKeys_nodup text)]
  rw [h1]
  have h2 : (counterKeys text).toFinset = text.toFinset := by
    apply Finset.ext
    intro a
    rw [List.mem_toFinset, List.mem_toFinset]
    exact counterKeys_mem text a
  rw [h2]
  apply Finset.sum_congr rfl
  intro a _
  rw [smul_eq_mul]

/-- C3: for every input string, the sum over the distinct symbols of
`frequency[s] * length(code[s])` equals the length of the encoded bit
string produced by `_encode_text`. -/

theorem weighted_cost_eq_encoded_length (text : List Char) :
    ((buildTree text).frequency.map fun p =>
      p.2 * ((pyFind (buildTree text).codes p.1).getD []).length).sum
      = ((buildTree text).encoded.getD []).length := by
  have htotal : ∀ c ∈ text, (pyFind (buildTree text).codes c).isSome :=
    fun c hc => buildTree_find_isSome text c hc
  rw [buildTree_encoded_def, encodeText_eq _ _ htotal, Option.getD_some,
    List.length_flatten, List.map_map]
  rw [buildTree_frequency_def, counterItems, List.map_map]
  have hcomp : ((fun p : Char × Nat => p.2 *
      ((pyFind (buildTree text).codes p.1).getD []).length) ∘
      fun c => (c, text.count c)) = fun c => text.count c *
      ((pyFind (buildTree text).codes c).getD []).length := rfl
  rw [hcomp]
  rw [sum_count_mul text
    (fun c => ((pyFind (buildTree text).codes c).getD []).length)]
  rfl

/-- C9, witness: the two-leaf tree. -/

theorem layout_positions_cover_reachable_witness :
    bothChildren (.mk Option.none 2 (.mk (some 'a') 1 .nil .nil)
      (.mk (some 'b') 1 .nil .nil)) = true ∧
    ∀ n ∈ (HuffmanNode.mk Option.none 2 (.mk (some 'a') 1 .nil .nil)
        (.mk (some 'b') 1 .nil .nil)).nodes,
      (pyFind (layoutTree (.mk Option.none 2 (.mk (some 'a') 1 .nil .nil)
        (.mk (some 'b') 1 .nil .nil))).1 n).isSome :=
  ⟨by decide,
    layout_positions_cover_reachable
      (.mk Option.none 2 (.mk (some 'a') 1 .nil .nil)
        (.mk (some 'b') 1 .nil .nil)) (by decide)⟩

end HuffmanViz
